import Mathlib

/-!
Verification of the t-rex tiny regular expression engine (trex.go).

The Go source is shallowly embedded over byte strings modelled as
`List Nat` (each element a byte value).  Fixed-size Go arrays
(`re.nodes`, `re.buffer`) are modelled as lists; reads past the end of
the node array use the zero node (Go zero value, whose type tag None is
the end-of-pattern sentinel), exactly matching the zero-initialised
arrays of the source.  A Go runtime panic from an out-of-range slice
index is modelled by the explicit result `CResult.crash`.

All recursive functions are structurally recursive (the matcher on an
explicit fuel that the caller sets above the node-list length, the
compiler loops on a fuel that dominates the strictly increasing input
index), so every definition is executable and kernel-reducible.
-/

namespace Trex

/-- Node type tags, Go `Type` (renamed: `Type` is a Lean keyword).
`None` (the Go zero value) doubles as the end-of-pattern sentinel. -/
inductive Ty where
  | None | Begin | End
  | Quant | LQuant | QMark | LQMark | Star | LStar | Plus | LPlus
  | Dot | Char | Class | NClass
  | Digit | NDigit | Alpha | NAlpha | Space | NSpace
deriving DecidableEq, Repr

/-- Design constants from the source. -/
def MaxNodes : Nat := 64
def MaxBufLen : Nat := 128
def MaxQuant : Nat := 1024
def MaxPlus : Nat := 40000

/-- One compiled node, Go `node`.  Go stores in `ccl` a slice
`re.buffer[idx:]` aliasing the class buffer; we record the slice start
in `off` during compilation and materialise the final buffer suffix
into `ccl` once compilation ends (the buffer is append-only, so the
materialised list equals the final content of the Go slice). -/
structure node where
  typ : Ty := .None
  ch : Nat := 0
  ccl : List Nat := []
  off : Nat := 0
  mn : Nat × Nat := (0, 0)
deriving DecidableEq, Repr

/-- A compiled pattern, Go `Regexp`: node sequence (written nodes plus
the trailing sentinel; the remaining zero-initialised array cells are
recovered by `nth`, whose default is the zero node) and the 128-byte
class buffer. -/
structure Regexp where
  nodes : List node
  buffer : List Nat
deriving DecidableEq, Repr

/-- Read node `k`; out-of-range reads give the zero node, the content
of the untouched cells of the Go 64-element array. -/
def nth (ns : List node) (k : Nat) : node := ns.getD k {}

/-- The node under the cursor, Go `nodes[0]`. -/
def hd (ns : List node) : node := nth ns 0

/-- Compilation error kinds; one per `fmt.Errorf` site of the source,
named as in the specification. -/
inductive CErr where
  | EmptyPattern        -- "An empty expression string"
  | NonQuantifiable     -- "Non-quantifiable before */+/?/{m,n}"
  | DanglingEscape      -- "Dangling \ " (pattern end or inside class)
  | UnterminatedClass   -- "Non terminated class"
  | BadRange            -- "Incorrect range in class"
  | BufferOverflow      -- "Buffer overflow ... in class"
  | BadQuantifier       -- quantifier parse errors
deriving DecidableEq, Repr

/-- Result of running compiler code: a value, a structured error, or a
Go runtime panic (index out of range), modelled explicitly. -/
inductive CResult (α : Type) where
  | ok (val : α)
  | err (e : CErr)
  | crash
deriving DecidableEq, Repr

/-- Go `isMeta`. -/
def isMeta (c : Nat) : Bool :=
  c = 115 ∨ c = 83 ∨ c = 119 ∨ c = 87 ∨ c = 100 ∨ c = 68  -- s S w W d D

/-- Go `isMetaOrEsc`. -/
def isMetaOrEsc (c : Nat) : Bool :=
  c = 92 ∨ isMeta c  -- backslash or meta letter

/-- Go `matchDot`: any byte except newline (10) and carriage return (13). -/
def matchDot (b : Nat) : Bool := b ≠ 10 ∧ b ≠ 13

/-- Go `matchDigit`. -/
def matchDigit (b : Nat) : Bool := 48 ≤ b ∧ b ≤ 57

/-- Go `matchAlpha`. -/
def matchAlpha (b : Nat) : Bool := (97 ≤ b ∧ b ≤ 122) ∨ (65 ≤ b ∧ b ≤ 90)

/-- Go `matchAlphaNum`. -/
def matchAlphaNum (b : Nat) : Bool := b = 95 ∨ matchAlpha b ∨ matchDigit b

/-- Go `matchSpace`: space, tab, newline, carriage return, form feed,
vertical tab. -/
def matchSpace (b : Nat) : Bool :=
  b = 32 ∨ b = 9 ∨ b = 10 ∨ b = 13 ∨ b = 12 ∨ b = 11

/-- Go `matchMetaChar`: membership in the meta class named by `mb`,
defaulting to byte equality. -/
def matchMetaChar (b mb : Nat) : Bool :=
  if mb = 100 then matchDigit b
  else if mb = 68 then !(matchDigit b)
  else if mb = 119 then matchAlphaNum b
  else if mb = 87 then !(matchAlphaNum b)
  else if mb = 115 then matchSpace b
  else if mb = 83 then !(matchSpace b)
  else b = mb

/-- One step of the class walk after an element, Go lines 513-531:
range detection and test.  `full` is the original payload (Go `txt`,
used for the left endpoint read `txt[i-1]`), `k` the continuation that
resumes the walk (Go `continue`). -/
def rangeStep (b : Nat) (full : List Nat) (k : Nat → List Nat → Bool)
    (i : Nat) (str : List Nat) : Bool :=
  if str.getD 0 0 ≠ 45 ∨ str.getD 1 0 = 0 then k i str
  else if str.getD 1 0 = 92 ∧ isMeta (str.getD 2 0) then k i str
  else
    let rmax := if str.getD 1 0 = 92 then str.getD 2 0 else str.getD 1 0
    if full.getD (i - 1) 0 ≤ b ∧ b ≤ rmax then true
    else k (i + 1) (str.drop 1)

/-- The class-walk loop of Go `matchCharClass`.  `str` is the
remaining truncated payload, `i` the walk position inside `full`.
Fuel dominates `str.length`, which shrinks every iteration, so the
zero-fuel branch is unreachable from `matchCharClass`. -/
def ccLoop (b : Nat) (full : List Nat) : Nat → Nat → List Nat → Bool
  | 0, _, _ => false
  | f + 1, i, str =>
    if str.getD 0 0 = 0 then false
    else if str.getD 0 0 = 92 then
      if matchMetaChar b (str.getD 1 0) then true
      else if isMeta ((str.drop 2).getD 0 0) then
        ccLoop b full f (i + 2) (str.drop 2)
      else
        rangeStep b full (fun i2 s2 => ccLoop b full f i2 s2)
          (i + 2) (str.drop 2)
    else
      if str.getD 0 0 = b then true
      else
        rangeStep b full (fun i2 s2 => ccLoop b full f i2 s2)
          (i + 1) (str.drop 1)

/-- Go `matchCharClass`: truncate the payload after the first zero
byte when that zero is not at position 0 (bytes.IndexByte), then walk. -/
def matchCharClass (b : Nat) (txt : List Nat) : Bool :=
  let i0 := txt.findIdx (fun c => c = 0)
  let str := if i0 = txt.length then txt
    else if 0 < i0 then txt.take (i0 + 1) else txt
  ccLoop b txt (txt.length + 1) 0 str

/-- Go `matchOne`: the per-byte predicate of a single node.  Sentinel,
anchor and quantifier tags fall through to `false`. -/
def matchOne (n : node) (b : Nat) : Bool :=
  match n.typ with
  | .Char => n.ch = b
  | .Dot => matchDot b
  | .Class => matchCharClass b n.ccl
  | .NClass => !(matchCharClass b n.ccl)
  | .Digit => matchDigit b
  | .NDigit => !(matchDigit b)
  | .Alpha => matchAlphaNum b
  | .NAlpha => !(matchAlphaNum b)
  | .Space => matchSpace b
  | .NSpace => !(matchSpace b)
  | _ => false

/-- The consume loop shared by Go `matchQuant` and `matchLQuant`:
count leading bytes of `txt` matching atom `a`, at most `mx`. -/
def countAtom (a : node) : List Nat → Nat → Nat
  | [], _ => 0
  | _ :: _, 0 => 0
  | c :: r, mx + 1 => if matchOne a c then countAtom a r mx + 1 else 0

/-- The backtracking loop of Go `matchQuant`: try counts `k, k-1, ...`
while the count stays at least `mi`; `m` matches the rest of the node
sequence against the corresponding text suffix. -/
def quantBT (m : List Nat → Bool) (txt : List Nat) (mi : Nat) : Nat → Bool
  | 0 => if 0 < mi then false else m (txt.drop 0)
  | k + 1 =>
    if k + 1 < mi then false
    else if m (txt.drop (k + 1)) then true
    else quantBT m txt mi k

/-- Go `matchQuant` with the rest-of-pattern matcher abstracted as `m`
(the source inlines `match(nodes[2:], ...)` there). -/
def matchQuantF (m : List Nat → Bool) (a : node) (txt : List Nat)
    (mi mx : Nat) : Bool :=
  quantBT m txt mi (countAtom a txt mx)

/-- The extension loop of Go `matchLQuant`: attempt `m`, then extend
one matching byte at a time while the attempt budget `mx` lasts. -/
def lquantLoop (m : List Nat → Bool) (a : node) : Nat → List Nat → Bool
  | 0, txt => m txt      -- unreachable from matchLQuantF: budget ≥ 1
  | mx + 1, txt =>
    if m txt then true
    else if mx = 0 then false
    else
      match txt with
      | [] => false
      | c :: r => if matchOne a c then lquantLoop m a mx r else false

/-- Go `matchLQuant` with the rest matcher abstracted: consume exactly
`mi` matching bytes, then extend lazily with budget `mx - mi + 1`. -/
def matchLQuantF (m : List Nat → Bool) (a : node) (txt : List Nat)
    (mi mx : Nat) : Bool :=
  if countAtom a txt mi = mi then
    lquantLoop m a (mx - mi + 1) (txt.drop mi)
  else false

/-- The loop body of Go `match`: dispatch on the sentinel, the end
anchor, the quantifier following the atom, or the single-byte step.
The two recursive entries of the source are abstracted: `m1` is
`match(nodes[1:], ...)` (the byte step) and `m2` is
`match(nodes[2:], ...)` (the rest matcher the quantifier routines
close over). -/
def matchStep (m1 m2 : List Nat → Bool) (nodes : List node) (txt : List Nat) :
    Bool :=
  if (hd nodes).typ = .None then true
  else if (hd nodes).typ = .End ∧ (nth nodes 1).typ = .None then
    decide (txt = [])
  else
    match (nth nodes 1).typ with
    | .QMark => matchQuantF m2 (hd nodes) txt 0 1
    | .LQMark => matchLQuantF m2 (hd nodes) txt 0 1
    | .Quant =>
      matchQuantF m2 (hd nodes) txt (nth nodes 1).mn.1 (nth nodes 1).mn.2
    | .LQuant =>
      matchLQuantF m2 (hd nodes) txt (nth nodes 1).mn.1 (nth nodes 1).mn.2
    | .Star => matchQuantF m2 (hd nodes) txt 0 MaxPlus
    | .LStar => matchLQuantF m2 (hd nodes) txt 0 MaxPlus
    | .Plus => matchQuantF m2 (hd nodes) txt 1 MaxPlus
    | .LPlus => matchLQuantF m2 (hd nodes) txt 1 MaxPlus
    | _ =>
      match txt with
      | [] => false
      | c :: rest => if matchOne (hd nodes) c then m1 rest else false

/-- Go `match`: walk the node cursor against the text cursor.  Fuel
decreases at every recursive call while the node cursor shortens; the
top-level entry `matchM` supplies fuel exceeding the cursor length, so
the zero-fuel branch is unreachable there. -/
def matchN : Nat → List node → List Nat → Bool
  | 0, _, _ => false
  | f + 1, nodes, txt =>
    matchStep (fun t => matchN f (nodes.drop 1) t)
      (fun t => matchN f (nodes.drop 2) t) nodes txt

/-- Entry to the core matcher at a node cursor: fuel strictly above the
cursor length keeps the fuel branch of `matchN` unreachable. -/
def matchM (ns : List node) (txt : List Nat) : Bool :=
  matchN (ns.length + 1) ns txt

/-- The offset loop of Go `Regexp.Match`: try the core match at every
nonempty suffix. -/
def matchLoop (ns : List node) : List Nat → Bool
  | [] => false
  | c :: r => if matchM ns (c :: r) then true else matchLoop ns r

/-- Go `Regexp.Match`. -/
def Regexp.Match (re : Regexp) (b : List Nat) : Bool :=
  if b = [] then false
  else if (nth re.nodes 0).typ = .Begin then matchM (re.nodes.drop 1) b
  else matchLoop re.nodes b

/-! ## The compiler -/

/-- The range-check tail of the class-copy loop body, Go lines 248-273.
`i` is the position of the element just stored, `k` the continuation
receiving the position of the next loop-condition check (the for-post
`i++` is folded into the argument of `k`).  Reading `expr[i+1]` past
the end is the Go panic, `crash`. -/
def classRange (expr : List Nat) (k : Nat → List Nat → CResult (Nat × List Nat))
    (i : Nat) (buf : List Nat) : CResult (Nat × List Nat) :=
  match expr.get? (i + 1) with
  | Option.none => .crash
  | Option.some d1 =>
    if d1 ≠ 45 then k i buf
    else if expr.length ≤ i + 2 then k i buf
    else if expr.getD (i + 2) 0 = 93 then k i buf
    else
      let rm := expr.getD (i + 2) 0 = 92
      if rm ∧ (expr.length ≤ i + 3 ∨ isMeta (expr.getD (i + 3) 0)) then
        k i buf
      else
        let c := if rm then expr.getD (i + 3) 0 else expr.getD (i + 2) 0
        if c < expr.getD i 0 then .err .BadRange
        else if MaxBufLen - 2 < buf.length then .err .BufferOverflow
        else k (i + 1) (buf ++ [expr.getD (i + 1) 0])

/-- The class-copy loop of Go `compile` (lines 211-274): copy class
bytes into the buffer until `]` or the end of the pattern.  Returns
the exit position and the extended buffer.  The index `i` strictly
increases, so fuel `expr.length + 1` suffices. -/
def classLoop (expr : List Nat) : Nat → Nat → List Nat → CResult (Nat × List Nat)
  | 0, _, _ => .crash
  | fuel + 1, i, buf =>
    match expr.get? i with
    | Option.none => .ok (i, buf)
    | Option.some c =>
      if c = 93 then .ok (i, buf)
      else if c = 92 then
        match expr.get? (i + 1) with
        | Option.none => .err .DanglingEscape
        | Option.some c1 =>
          if isMetaOrEsc c1 then
            if MaxBufLen - 3 < buf.length then .err .BufferOverflow
            else
              match expr.get? (i + 2) with
              | Option.none => .crash      -- Go reads expr[i+1] after i = ii
              | Option.some c2 =>
                if c2 ≠ 92 then classLoop expr fuel (i + 2) (buf ++ [92, c1])
                else
                  classRange expr (fun i2 b2 => classLoop expr fuel (i2 + 1) b2)
                    (i + 1) (buf ++ [92, c1])
          else
            if MaxBufLen - 2 < buf.length then .err .BufferOverflow
            else
              classRange expr (fun i2 b2 => classLoop expr fuel (i2 + 1) b2)
                (i + 1) (buf ++ [expr.getD (i + 1) 0])
      else
        if MaxBufLen - 2 < buf.length then .err .BufferOverflow
        else
          classRange expr (fun i2 b2 => classLoop expr fuel (i2 + 1) b2)
            i (buf ++ [c])

/-- The quantifier min-value digit loop, Go lines 290-301: parse a
digit run, then break at a comma or closing brace; reading the break
test past the end of the pattern is the Go panic. -/
def qMinLoop (expr : List Nat) : Nat → Nat → Nat → CResult (Nat × Nat)
  | 0, _, _ => .crash
  | fuel + 1, i, val =>
    match expr.get? i with
    | Option.none => .err .BadQuantifier
    | Option.some c =>
      if c < 48 ∨ 57 < c then .err .BadQuantifier
      else
        let v2 := 10 * val + (c - 48)
        match expr.get? (i + 1) with
        | Option.none => .crash
        | Option.some c2 =>
          if c2 = 44 ∨ c2 = 125 then .ok (v2, i + 1)
          else qMinLoop expr fuel (i + 1) v2

/-- The quantifier max-value digit loop, Go lines 317-323: digits until
the closing brace; the loop condition reads past the end when the
pattern stops first, the Go panic. -/
def qMaxLoop (expr : List Nat) : Nat → Nat → Nat → CResult (Nat × Nat)
  | 0, _, _ => .crash
  | fuel + 1, i, val =>
    match expr.get? i with
    | Option.none => .crash
    | Option.some c =>
      if c = 125 then .ok (val, i)
      else if c < 48 ∨ 57 < c then .err .BadQuantifier
      else qMaxLoop expr fuel (i + 1) (10 * val + (c - 48))

/-- The tail of the class arm, Go lines 276-281: after the copy loop,
insist on the closing bracket (reading it past the end is the Go
panic) and write the zero terminator.  Returns the class tag, the exit
position and the extended buffer. -/
def classFinish (expr : List Nat) (ty : Ty) (r : CResult (Nat × List Nat)) :
    CResult (Ty × Nat × List Nat) :=
  match r with
  | .err e => .err e
  | .crash => .crash
  | .ok (iend, buf1) =>
    match expr.get? iend with
    | Option.none => .crash        -- Go reads expr[i] after the loop
    | Option.some cc =>
      if cc ≠ 93 then .err .UnterminatedClass
      else if MaxBufLen ≤ buf1.length then .crash  -- terminator write
      else .ok (ty, iend, buf1 ++ [0])

/-- The class arm of `compile`, Go lines 199-281, for `i` at the
opening bracket: detect negation by the caret lookahead, then copy and
terminate. -/
def parseClass (expr : List Nat) (i : Nat) (buf : List Nat) :
    CResult (Ty × Nat × List Nat) :=
  if i + 1 < expr.length ∧ expr.getD (i + 1) 0 = 94 then
    classFinish expr .NClass (classLoop expr (expr.length + 1) (i + 2) buf)
  else
    classFinish expr .Class (classLoop expr (expr.length + 1) (i + 1) buf)

/-- The bound-parsing part of the quantifier arm, Go lines 289-328,
for `i` at the byte after the opening brace.  Returns the bounds and
the position of the closing brace. -/
def parseQuant (expr : List Nat) (i : Nat) : CResult ((Nat × Nat) × Nat) :=
  match qMinLoop expr (expr.length + 1) i 0 with
  | .err e => .err e
  | .crash => .crash
  | .ok (v1, i1) =>
    if MaxQuant < v1 then .err .BadQuantifier
    else if expr.getD i1 0 = 44 then
      if expr.length ≤ i1 + 1 then .err .BadQuantifier
      else if expr.getD (i1 + 1) 0 = 125 then .ok ((v1, MaxQuant), i1 + 1)
      else
        match qMaxLoop expr (expr.length + 1) (i1 + 1) 0 with
        | .err e => .err e
        | .crash => .crash
        | .ok (v2, iend) =>
          if MaxQuant < v2 ∨ v2 < v1 then .err .BadQuantifier
          else .ok ((v1, v2), iend)
    else .ok ((v1, v1), i1)  -- exact form: the break byte was the brace

/-- The node emitted for a pattern-level escape, Go lines 180-196. -/
def escNode (c1 : Nat) : node :=
  if c1 = 100 then { typ := .Digit }
  else if c1 = 68 then { typ := .NDigit }
  else if c1 = 119 then { typ := .Alpha }
  else if c1 = 87 then { typ := .NAlpha }
  else if c1 = 115 then { typ := .Space }
  else if c1 = 83 then { typ := .NSpace }
  else { typ := .Char, ch := c1 }

/-- The main compile loop, Go lines 123-343.  `ns` holds the nodes
written so far (`ns.length` is Go `j`), `buf` the class-buffer prefix
written so far (`buf.length` is Go `idx`).  Class nodes record the
slice start in `off`; `compile` materialises the payloads.  The input
index strictly increases every iteration, so fuel `expr.length + 1`
suffices and the zero-fuel branch is unreachable. -/
def compileLoop (expr : List Nat) :
    Nat → Nat → Bool → List node → List Nat → CResult (List node × List Nat)
  | 0, _, _, _, _ => .crash
  | fuel + 1, i, quable, ns, buf =>
    if i < expr.length ∧ ns.length + 1 < MaxNodes then
      if expr.getD i 0 = 94 then        -- caret: Begin anchor
        compileLoop expr fuel (i + 1) false (ns ++ [{ typ := .Begin }]) buf
      else if expr.getD i 0 = 36 then   -- dollar: End anchor
        compileLoop expr fuel (i + 1) false (ns ++ [{ typ := .End }]) buf
      else if expr.getD i 0 = 46 then   -- dot
        compileLoop expr fuel (i + 1) true (ns ++ [{ typ := .Dot }]) buf
      else if expr.getD i 0 = 42 then   -- star
        if !quable then .err .NonQuantifiable
        else if i + 1 < expr.length ∧ expr.getD (i + 1) 0 = 63 then
          compileLoop expr fuel (i + 2) false (ns ++ [{ typ := .LStar }]) buf
        else
          compileLoop expr fuel (i + 1) false (ns ++ [{ typ := .Star }]) buf
      else if expr.getD i 0 = 43 then   -- plus
        if !quable then .err .NonQuantifiable
        else if i + 1 < expr.length ∧ expr.getD (i + 1) 0 = 63 then
          compileLoop expr fuel (i + 2) false (ns ++ [{ typ := .LPlus }]) buf
        else
          compileLoop expr fuel (i + 1) false (ns ++ [{ typ := .Plus }]) buf
      else if expr.getD i 0 = 63 then   -- question mark
        if !quable then .err .NonQuantifiable
        else if i + 1 < expr.length ∧ expr.getD (i + 1) 0 = 63 then
          compileLoop expr fuel (i + 2) false (ns ++ [{ typ := .LQMark }]) buf
        else
          compileLoop expr fuel (i + 1) false (ns ++ [{ typ := .QMark }]) buf
      else if expr.getD i 0 = 92 then   -- backslash escape
        match expr.get? (i + 1) with
        | Option.none => .err .DanglingEscape
        | Option.some c1 =>
          compileLoop expr fuel (i + 2) true (ns ++ [escNode c1]) buf
      else if expr.getD i 0 = 91 then   -- opening bracket: class
        match parseClass expr i buf with
        | .err e => .err e
        | .crash => .crash
        | .ok (ty, iend, buf1) =>
          compileLoop expr fuel (iend + 1) true
            (ns ++ [{ typ := ty, off := buf.length }]) buf1
      else if expr.getD i 0 = 123 then  -- opening brace: quantifier
        if !quable then .err .NonQuantifiable
        else
          match parseQuant expr (i + 1) with
          | .err e => .err e
          | .crash => .crash
          | .ok (mn, iend) =>
            if iend + 1 < expr.length ∧ expr.getD (iend + 1) 0 = 63 then
              compileLoop expr fuel (iend + 2) false
                (ns ++ [{ typ := .LQuant, mn := mn }]) buf
            else
              compileLoop expr fuel (iend + 1) false
                (ns ++ [{ typ := .Quant, mn := mn }]) buf
      else                              -- literal byte
        compileLoop expr fuel (i + 1) true
          (ns ++ [{ typ := .Char, ch := expr.getD i 0 }]) buf
    else .ok (ns ++ [{}], buf)

/-- Assemble the compiled pattern: pad the written buffer to the
128-byte array and materialise each class payload as the final buffer
suffix starting at its recorded offset (the content of the Go slice
`re.buffer[idx:]` after compilation; valid since the buffer is
append-only). -/
def mkRegexp (ns : List node) (buf : List Nat) : Regexp :=
  let full := buf ++ List.replicate (MaxBufLen - buf.length) 0
  ⟨ns.map (fun nd =>
    if nd.typ = .Class ∨ nd.typ = .NClass then
      { nd with ccl := full.drop nd.off }
    else nd), full⟩

/-- Go `compile`: reject the empty pattern, run the loop, assemble. -/
def compile (expr : List Nat) : CResult Regexp :=
  if expr.length = 0 then .err .EmptyPattern
  else
    match compileLoop expr (expr.length + 1) 0 false [] [] with
    | .err e => .err e
    | .crash => .crash
    | .ok (ns, buf) => .ok (mkRegexp ns buf)

/-- Extract the compiled pattern from a successful result. -/
def theRe (r : CResult Regexp) : Regexp :=
  match r with
  | .ok re => re
  | _ => ⟨[], []⟩

/-- Whether a compile result is a success. -/
def isOk {α : Type} (r : CResult α) : Bool :=
  match r with
  | .ok _ => true
  | _ => false

/-! ## Auxiliary notions for the statements and proofs -/

/-- Tags of quantifier nodes. -/
def isQuantTy : Ty → Bool
  | .Quant | .LQuant | .QMark | .LQMark | .Star | .LStar | .Plus | .LPlus => true
  | _ => false

/-- Tags of quantifiable atoms (literal, dot, built-in classes, custom
classes), the nodes a quantifier may follow. -/
def isAtomTy : Ty → Bool
  | .Char | .Dot | .Class | .NClass | .Digit | .NDigit
  | .Alpha | .NAlpha | .Space | .NSpace => true
  | _ => false

/-- Replace a greedy quantifier tag by its lazy form; other tags are
unchanged. -/
def lazTy : Ty → Ty
  | .QMark => .LQMark
  | .Star => .LStar
  | .Plus => .LPlus
  | .Quant => .LQuant
  | t => t

/-- Replace a greedy quantifier node by its lazy form. -/
def lazify (nd : node) : node := { nd with typ := lazTy nd.typ }

/-- Counted quantifier nodes produced by the compiler have ordered
bounds; the matcher equivalences below need this invariant. -/
def quantWF (ns : List node) : Prop :=
  ∀ nd ∈ ns, (nd.typ = .Quant ∨ nd.typ = .LQuant) → nd.mn.1 ≤ nd.mn.2

/-- Length of the leading run of bytes matching atom `a`. -/
def runLen (a : node) : List Nat → Nat
  | [] => 0
  | c :: r => if matchOne a c then runLen a r + 1 else 0

/-! ## Lemmas on the quantifier loops -/

theorem runLen_le_length (a : node) (txt : List Nat) :
    runLen a txt ≤ txt.length := by
  induction txt with
  | nil => simp [runLen]
  | cons c r ih =>
    simp only [runLen, List.length_cons]
    split <;> omega

theorem countAtom_eq_min (a : node) (txt : List Nat) (mx : Nat) :
    countAtom a txt mx = min mx (runLen a txt) := by
  induction txt generalizing mx with
  | nil => simp [countAtom, runLen]
  | cons c r ih =>
    cases mx with
    | zero => simp [countAtom]
    | succ m =>
      simp only [countAtom, runLen]
      split
      · rw [ih]; omega
      · simp

theorem quantBT_iff (m : List Nat → Bool) (txt : List Nat) (mi : Nat) :
    ∀ k, (quantBT m txt mi k = true ↔
      ∃ j, mi ≤ j ∧ j ≤ k ∧ m (txt.drop j) = true) := by
  intro k
  induction k with
  | zero =>
    simp only [quantBT]
    constructor
    · intro h
      split at h
      · exact absurd h (by simp)
      · exact ⟨0, by omega, by omega, h⟩
    · rintro ⟨j, hmi, hj, hm⟩
      have hj0 : j = 0 := by omega
      subst hj0
      split
      · omega
      · exact hm
  | succ k ih =>
    simp only [quantBT]
    constructor
    · intro h
      split at h
      · exact absurd h (by simp)
      · split at h
        · next hm => exact ⟨k + 1, by omega, le_refl _, hm⟩
        · obtain ⟨j, h1, h2, h3⟩ := ih.mp h
          exact ⟨j, h1, by omega, h3⟩
    · rintro ⟨j, hmi, hj, hm⟩
      split
      · next hlt => omega
      · split
        · rfl
        · next hm1 =>
          apply ih.mpr
          refine ⟨j, hmi, ?_, hm⟩
          rcases Nat.lt_or_ge j (k + 1) with h | h
          · omega
          · have : j = k + 1 := by omega
            subst this
            simp [hm] at hm1

theorem runLen_drop (a : node) (txt : List Nat) (mi : Nat)
    (h : mi ≤ runLen a txt) :
    runLen a (txt.drop mi) = runLen a txt - mi := by
  induction txt generalizing mi with
  | nil => simp [runLen]
  | cons c r ih =>
    cases mi with
    | zero => simp
    | succ m =>
      simp only [runLen] at h ⊢
      split at h
      · next hc =>
        simp only [List.drop_succ_cons]
        rw [ih m (by omega)]
        simp [runLen, hc]
      · omega

theorem lquantLoop_succ (m : List Nat → Bool) (a : node) (mx : Nat)
    (txt : List Nat) :
    lquantLoop m a (mx + 1) txt =
      if m txt then true
      else if mx = 0 then false
      else
        match txt with
        | [] => false
        | c :: r => if matchOne a c then lquantLoop m a mx r else false := rfl

theorem lquantLoop_iff (m : List Nat → Bool) (a : node) :
    ∀ (b : Nat) (txt : List Nat), (lquantLoop m a (b + 1) txt = true ↔
      ∃ t, t ≤ b ∧ t ≤ runLen a txt ∧ m (txt.drop t) = true) := by
  intro b
  induction b with
  | zero =>
    intro txt
    rw [lquantLoop_succ]
    constructor
    · intro h
      split at h
      · next hm => exact ⟨0, le_refl _, Nat.zero_le _, hm⟩
      · exact absurd h (by simp)
    · rintro ⟨t, ht, _, hm⟩
      have : t = 0 := by omega
      subst this
      simp only [List.drop_zero] at hm
      simp [hm]
  | succ b ih =>
    intro txt
    rw [lquantLoop_succ]
    constructor
    · intro h
      split at h
      · next hm => exact ⟨0, Nat.zero_le _, Nat.zero_le _, hm⟩
      · rw [if_neg (by omega : ¬ (b + 1 = 0))] at h
        cases txt with
        | nil => exact absurd h (by simp)
        | cons c r =>
          simp only at h
          split at h
          · next hc =>
            obtain ⟨t, h1, h2, h3⟩ := (ih r).mp h
            refine ⟨t + 1, by omega, ?_, h3⟩
            have hr1 : runLen a (c :: r) = runLen a r + 1 := by
              simp [runLen, hc]
            omega
          · exact absurd h (by simp)
    · rintro ⟨t, ht, hrun, hm⟩
      split
      · rfl
      · next hm0 =>
        rw [if_neg (by omega : ¬ (b + 1 = 0))]
        have ht0 : t ≠ 0 := by
          intro h0
          subst h0
          simp only [List.drop_zero] at hm
          simp [hm] at hm0
        obtain ⟨s, rfl⟩ : ∃ s, t = s + 1 := ⟨t - 1, by omega⟩
        cases txt with
        | nil =>
          simp [runLen] at hrun
        | cons c r =>
          have hc : matchOne a c = true := by
            by_contra hcf
            simp only [Bool.not_eq_true] at hcf
            have hr0 : runLen a (c :: r) = 0 := by simp [runLen, hcf]
            omega
          have hr1 : runLen a (c :: r) = runLen a r + 1 := by
            simp [runLen, hc]
          simp only [hc, if_true]
          apply (ih r).mpr
          refine ⟨s, by omega, ?_, ?_⟩
          · omega
          · rw [List.drop_succ_cons] at hm
            simpa using hm

theorem matchN_succ (f : Nat) (ns : List node) (txt : List Nat) :
    matchN (f + 1) ns txt =
      matchStep (fun t => matchN f (ns.drop 1) t)
        (fun t => matchN f (ns.drop 2) t) ns txt := rfl

theorem matchLoop_cons (ns : List node) (c : Nat) (r : List Nat) :
    matchLoop ns (c :: r) =
      if matchM ns (c :: r) then true else matchLoop ns r := rfl

theorem nth_cons_succ (x : node) (l : List node) (k : Nat) :
    nth (x :: l) (k + 1) = nth l k := rfl

theorem nth_nil (k : Nat) : nth [] k = {} := by
  cases k <;> rfl

theorem nth_mem {ns : List node} {k : Nat} (h : (nth ns k).typ ≠ .None) :
    nth ns k ∈ ns := by
  by_cases hk : k < ns.length
  · rw [nth, List.getD_eq_getElem ns {} hk]
    exact List.getElem_mem hk
  · exfalso
    apply h
    rw [nth, List.getD_eq_default ns {} (by omega)]

/-- The matcher result does not depend on the fuel once it exceeds the
node-cursor length: every recursive call keeps fuel above the length of
its shortened cursor. -/
theorem matchN_fuel_irrel : ∀ (f : Nat) (ns : List node) (g : Nat)
    (txt : List Nat), ns.length < f → ns.length < g →
    matchN f ns txt = matchN g ns txt := by
  intro f
  induction f with
  | zero => intro ns g txt h _; omega
  | succ f ih =>
    intro ns g txt hf hg
    obtain ⟨g2, rfl⟩ : ∃ g2, g = g2 + 1 := ⟨g - 1, by omega⟩
    rw [matchN_succ, matchN_succ]
    by_cases hnil : ns = []
    · subst hnil
      simp [matchStep, hd, nth_nil]
    · have hlen : 0 < ns.length := by
        cases ns
        · simp at hnil
        · simp
      have h1 : (fun t => matchN f (ns.drop 1) t) =
          fun t => matchN g2 (ns.drop 1) t := by
        funext t
        exact ih _ _ _ (by simp [List.length_drop]; omega)
          (by simp [List.length_drop]; omega)
      have h2 : (fun t => matchN f (ns.drop 2) t) =
          fun t => matchN g2 (ns.drop 2) t := by
        funext t
        exact ih _ _ _ (by simp [List.length_drop]; omega)
          (by simp [List.length_drop]; omega)
      rw [h1, h2]

theorem matchM_eq_matchN (ns : List node) (f : Nat) (txt : List Nat)
    (h : ns.length < f) : matchM ns txt = matchN f ns txt :=
  matchN_fuel_irrel (ns.length + 1) ns f txt (by omega) h

/-- The offset loop of `Regexp.Match` succeeds exactly when the core
match succeeds at some offset strictly below the input length: the
empty suffix is never attempted. -/
theorem matchLoop_iff (ns : List node) : ∀ b : List Nat,
    (matchLoop ns b = true ↔
      ∃ k, k < b.length ∧ matchM ns (b.drop k) = true) := by
  intro b
  induction b with
  | nil => simp [matchLoop]
  | cons c r ih =>
    rw [matchLoop_cons]
    constructor
    · intro h
      split at h
      · next hm => exact ⟨0, by simp, by simpa using hm⟩
      · obtain ⟨k, h1, h2⟩ := ih.mp h
        exact ⟨k + 1, by simp only [List.length_cons]; omega,
          by simpa using h2⟩
    · rintro ⟨k, h1, h2⟩
      split
      · rfl
      · next hm =>
        apply ih.mpr
        cases k with
        | zero =>
          simp only [List.drop_zero] at h2
          exact absurd h2 hm
        | succ k =>
          refine ⟨k, ?_, by simpa using h2⟩
          simp only [List.length_cons] at h1
          omega

/-- Greedy and lazy quantifier routines accept the same inputs when
the bounds are ordered: both succeed exactly when some consumption
count in range lets the rest matcher succeed. -/
theorem matchQuantF_eq_matchLQuantF (m : List Nat → Bool) (a : node)
    (txt : List Nat) (mi mx : Nat) (h : mi ≤ mx) :
    matchQuantF m a txt mi mx = matchLQuantF m a txt mi mx := by
  have key : ∀ r1 r2 : Bool,
      (r1 = true ↔ r2 = true) → r1 = r2 := by
    intro r1 r2 hiff
    cases r1 <;> cases r2 <;> simp_all
  apply key
  rw [matchQuantF, matchLQuantF, quantBT_iff, countAtom_eq_min]
  constructor
  · rintro ⟨j, h1, h2, h3⟩
    have hjr : j ≤ runLen a txt := by omega
    have hmi : mi ≤ runLen a txt := le_trans h1 hjr
    rw [countAtom_eq_min, min_eq_left hmi, if_pos rfl]
    have hb : mx - mi + 1 = (mx - mi) + 1 := rfl
    rw [hb, lquantLoop_iff]
    refine ⟨j - mi, by omega, ?_, ?_⟩
    · rw [runLen_drop a txt mi hmi]; omega
    · rw [List.drop_drop]
      have hj : mi + (j - mi) = j := by omega
      rw [hj]; exact h3
  · intro hlz
    rw [countAtom_eq_min] at hlz
    by_cases hmi : mi ≤ runLen a txt
    · rw [min_eq_left hmi, if_pos rfl, lquantLoop_iff] at hlz
      obtain ⟨t, h1, h2, h3⟩ := hlz
      rw [runLen_drop a txt mi hmi] at h2
      refine ⟨mi + t, by omega, by omega, ?_⟩
      rw [List.drop_drop] at h3
      exact h3
    · rw [min_eq_right (by omega), if_neg (by omega)] at hlz
      exact absurd hlz (by simp)

/-! ## The compiler produces ordered quantifier bounds -/

theorem quantWF_append {ns : List node} {nd : node} (h : quantWF ns)
    (hnd : (nd.typ = .Quant ∨ nd.typ = .LQuant) → nd.mn.1 ≤ nd.mn.2) :
    quantWF (ns ++ [nd]) := by
  intro x hx hq
  rcases List.mem_append.mp hx with h1 | h1
  · exact h x h1 hq
  · simp only [List.mem_singleton] at h1
    subst h1
    exact hnd hq

theorem escNode_mn (c1 : Nat) : (escNode c1).mn = (0, 0) := by
  rw [escNode]
  repeat' split
  all_goals rfl

theorem parseQuant_ordered (expr : List Nat) (i : Nat)
    (out : (Nat × Nat) × Nat) (h : parseQuant expr i = .ok out) :
    out.1.1 ≤ out.1.2 := by
  rw [parseQuant] at h
  repeat' split at h
  all_goals try exact CResult.noConfusion h
  all_goals injection h with h2
  all_goals rw [← h2]
  all_goals dsimp only
  all_goals omega

theorem compileLoop_quantWF (expr : List Nat) : ∀ (fuel i : Nat) (q : Bool)
    (ns : List node) (buf : List Nat) (out : List node × List Nat),
    quantWF ns → compileLoop expr fuel i q ns buf = .ok out →
    quantWF out.1 := by
  intro fuel
  induction fuel with
  | zero =>
    intro i q ns buf out _ h
    exact CResult.noConfusion h
  | succ fuel ih =>
    intro i q ns buf out hwf h
    rw [compileLoop.eq_2] at h
    by_cases h0 : i < expr.length ∧ ns.length + 1 < MaxNodes
    case neg =>
      rw [if_neg h0] at h
      injection h with h2
      rw [← h2]
      exact quantWF_append hwf (fun _ => by decide)
    rw [if_pos h0] at h
    by_cases h1 : expr.getD i 0 = 94
    case pos =>
      rw [if_pos h1] at h
      exact ih _ _ _ _ _ (quantWF_append hwf (fun _ => by decide)) h
    rw [if_neg h1] at h
    by_cases h2 : expr.getD i 0 = 36
    case pos =>
      rw [if_pos h2] at h
      exact ih _ _ _ _ _ (quantWF_append hwf (fun _ => by decide)) h
    rw [if_neg h2] at h
    by_cases h3 : expr.getD i 0 = 46
    case pos =>
      rw [if_pos h3] at h
      exact ih _ _ _ _ _ (quantWF_append hwf (fun _ => by decide)) h
    rw [if_neg h3] at h
    by_cases h4 : expr.getD i 0 = 42
    case pos =>
      rw [if_pos h4] at h
      by_cases hb : (!q) = true
      case pos =>
        rw [if_pos hb] at h
        exact CResult.noConfusion h
      rw [if_neg hb] at h
      by_cases hlz : i + 1 < expr.length ∧ expr.getD (i + 1) 0 = 63
      case pos =>
        rw [if_pos hlz] at h
        exact ih _ _ _ _ _ (quantWF_append hwf (fun _ => by decide)) h
      rw [if_neg hlz] at h
      exact ih _ _ _ _ _ (quantWF_append hwf (fun _ => by decide)) h
    rw [if_neg h4] at h
    by_cases h5 : expr.getD i 0 = 43
    case pos =>
      rw [if_pos h5] at h
      by_cases hb : (!q) = true
      case pos =>
        rw [if_pos hb] at h
        exact CResult.noConfusion h
      rw [if_neg hb] at h
      by_cases hlz : i + 1 < expr.length ∧ expr.getD (i + 1) 0 = 63
      case pos =>
        rw [if_pos hlz] at h
        exact ih _ _ _ _ _ (quantWF_append hwf (fun _ => by decide)) h
      rw [if_neg hlz] at h
      exact ih _ _ _ _ _ (quantWF_append hwf (fun _ => by decide)) h
    rw [if_neg h5] at h
    by_cases h6 : expr.getD i 0 = 63
    case pos =>
      rw [if_pos h6] at h
      by_cases hb : (!q) = true
      case pos =>
        rw [if_pos hb] at h
        exact CResult.noConfusion h
      rw [if_neg hb] at h
      by_cases hlz : i + 1 < expr.length ∧ expr.getD (i + 1) 0 = 63
      case pos =>
        rw [if_pos hlz] at h
        exact ih _ _ _ _ _ (quantWF_append hwf (fun _ => by decide)) h
      rw [if_neg hlz] at h
      exact ih _ _ _ _ _ (quantWF_append hwf (fun _ => by decide)) h
    rw [if_neg h6] at h
    by_cases h7 : expr.getD i 0 = 92
    case pos =>
      rw [if_pos h7] at h
      cases hget : expr.get? (i + 1) with
      | none =>
        rw [hget] at h
        exact CResult.noConfusion h
      | some c1 =>
        rw [hget] at h
        exact ih _ _ _ _ _
          (quantWF_append hwf (fun _ => by rw [escNode_mn])) h
    rw [if_neg h7] at h
    by_cases h8 : expr.getD i 0 = 91
    case pos =>
      rw [if_pos h8] at h
      cases hpc : parseClass expr i buf with
      | err e =>
        rw [hpc] at h
        exact CResult.noConfusion h
      | crash =>
        rw [hpc] at h
        exact CResult.noConfusion h
      | ok val =>
        obtain ⟨ty, iend, buf1⟩ := val
        rw [hpc] at h
        exact ih _ _ _ _ _ (quantWF_append hwf (fun _ => Nat.le_refl 0)) h
    rw [if_neg h8] at h
    by_cases h9 : expr.getD i 0 = 123
    case pos =>
      rw [if_pos h9] at h
      by_cases hb : (!q) = true
      case pos =>
        rw [if_pos hb] at h
        exact CResult.noConfusion h
      rw [if_neg hb] at h
      cases hpq : parseQuant expr (i + 1) with
      | err e =>
        rw [hpq] at h
        exact CResult.noConfusion h
      | crash =>
        rw [hpq] at h
        exact CResult.noConfusion h
      | ok val =>
        obtain ⟨mn, iend⟩ := val
        rw [hpq] at h
        dsimp only at h
        by_cases hlz : iend + 1 < expr.length ∧ expr.getD (iend + 1) 0 = 63
        case pos =>
          rw [if_pos hlz] at h
          exact ih _ _ _ _ _
            (quantWF_append hwf (fun _ => parseQuant_ordered _ _ _ hpq)) h
        rw [if_neg hlz] at h
        exact ih _ _ _ _ _
          (quantWF_append hwf (fun _ => parseQuant_ordered _ _ _ hpq)) h
    rw [if_neg h9] at h
    exact ih _ _ _ _ _ (quantWF_append hwf (fun _ => Nat.le_refl 0)) h

theorem mkRegexp_nodes_quantWF (ns : List node) (buf : List Nat)
    (hwf : quantWF ns) : quantWF (mkRegexp ns buf).nodes := by
  intro nd hm hq
  simp only [mkRegexp, List.mem_map] at hm
  obtain ⟨x, hx, hfx⟩ := hm
  have htm : nd.typ = x.typ ∧ nd.mn = x.mn := by
    rw [← hfx]
    split <;> exact ⟨rfl, rfl⟩
  rw [htm.1] at hq
  rw [htm.2]
  exact hwf x hx hq

theorem compile_quantWF (expr : List Nat) (re : Regexp)
    (h : compile expr = .ok re) : quantWF re.nodes := by
  unfold compile at h
  split at h
  · exact CResult.noConfusion h
  · split at h
    · exact CResult.noConfusion h
    · exact CResult.noConfusion h
    · next ns buf heq =>
      injection h with h2
      rw [← h2]
      exact mkRegexp_nodes_quantWF ns buf
        (compileLoop_quantWF expr (expr.length + 1) 0 false [] [] (ns, buf)
          (fun nd hm => absurd hm (List.not_mem_nil nd)) heq)

/-! ## Lazification: greedy and lazy forms accept the same inputs -/

theorem matchOne_lazify (n : node) (b : Nat) :
    matchOne (lazify n) b = matchOne n b := by
  cases h : n.typ <;> simp [matchOne, lazify, lazTy, h]

theorem countAtom_lazify (a : node) : ∀ (txt : List Nat) (mx : Nat),
    countAtom (lazify a) txt mx = countAtom a txt mx := by
  intro txt
  induction txt with
  | nil => intro mx; rfl
  | cons c r ih =>
    intro mx
    cases mx with
    | zero => rfl
    | succ m => simp [countAtom, matchOne_lazify, ih]

theorem lquantLoop_lazify (m : List Nat → Bool) (a : node) :
    ∀ (mx : Nat) (txt : List Nat),
    lquantLoop m (lazify a) mx txt = lquantLoop m a mx txt := by
  intro mx
  induction mx with
  | zero => intro txt; rfl
  | succ mx ih =>
    intro txt
    rw [lquantLoop_succ, lquantLoop_succ]
    cases txt <;> simp [matchOne_lazify, ih]

theorem matchQuantF_lazify (m : List Nat → Bool) (a : node) (txt : List Nat)
    (mi mx : Nat) :
    matchQuantF m (lazify a) txt mi mx = matchQuantF m a txt mi mx := by
  rw [matchQuantF, matchQuantF, countAtom_lazify]

theorem matchLQuantF_lazify (m : List Nat → Bool) (a : node) (txt : List Nat)
    (mi mx : Nat) :
    matchLQuantF m (lazify a) txt mi mx = matchLQuantF m a txt mi mx := by
  rw [matchLQuantF, matchLQuantF, countAtom_lazify, lquantLoop_lazify]

theorem nth_map_lazify : ∀ (ns : List node) (k : Nat),
    nth (ns.map lazify) k = lazify (nth ns k) := by
  intro ns
  induction ns with
  | nil =>
    intro k
    rw [List.map_nil, nth_nil]
    rfl
  | cons x l ih =>
    intro k
    cases k with
    | zero => rfl
    | succ k => rw [List.map_cons, nth_cons_succ, nth_cons_succ, ih]

theorem drop_map_lazify : ∀ (ns : List node) (n : Nat),
    (ns.map lazify).drop n = (ns.drop n).map lazify := by
  intro ns
  induction ns with
  | nil => intro n; simp
  | cons x l ih =>
    intro n
    cases n with
    | zero => rfl
    | succ n =>
      rw [List.map_cons, List.drop_succ_cons, List.drop_succ_cons]
      exact ih n

theorem lazTy_eq_none_iff (t : Ty) : lazTy t = .None ↔ t = .None := by
  cases t <;> simp [lazTy]

theorem lazTy_eq_end_iff (t : Ty) : lazTy t = .End ↔ t = .End := by
  cases t <;> simp [lazTy]

theorem lazTy_eq_begin_iff (t : Ty) : lazTy t = .Begin ↔ t = .Begin := by
  cases t <;> simp [lazTy]

theorem quantWF_drop {ns : List node} (n : Nat) (h : quantWF ns) :
    quantWF (ns.drop n) :=
  fun nd hm => h nd (List.mem_of_mem_drop hm)

/-- The loop body treats a node list and its lazified form alike: the
dispatch sends each greedy quantifier to the lazy routine with the same
bounds, and the two routines agree by the duality above (the counted
case needs the compile-time invariant that the bounds are ordered). -/
theorem matchStep_lazify (m1 m2 : List Nat → Bool) (ns : List node)
    (txt : List Nat) (hwf : quantWF ns) :
    matchStep m1 m2 (ns.map lazify) txt = matchStep m1 m2 ns txt := by
  have hhd : hd (ns.map lazify) = lazify (hd ns) := nth_map_lazify ns 0
  have hn1 : nth (ns.map lazify) 1 = lazify (nth ns 1) := nth_map_lazify ns 1
  have hty : (lazify (hd ns)).typ = lazTy (hd ns).typ := rfl
  have hty1 : (lazify (nth ns 1)).typ = lazTy (nth ns 1).typ := rfl
  rw [matchStep.eq_def, matchStep.eq_def, hhd, hn1, hty, hty1]
  simp only [lazTy_eq_none_iff, lazTy_eq_end_iff]
  by_cases hN : (hd ns).typ = .None
  · rw [if_pos hN, if_pos hN]
  rw [if_neg hN, if_neg hN]
  by_cases hE : (hd ns).typ = .End ∧ (nth ns 1).typ = .None
  · rw [if_pos hE, if_pos hE]
  rw [if_neg hE, if_neg hE]
  have hmn : (lazify (nth ns 1)).mn = (nth ns 1).mn := rfl
  have hq : (nth ns 1).typ = .Quant → (nth ns 1).mn.1 ≤ (nth ns 1).mn.2 := by
    intro h
    exact hwf _ (nth_mem (by rw [h]; intro hc; cases hc)) (Or.inl h)
  cases h2 : (nth ns 1).typ with
  | Quant =>
    simp only [lazTy, hmn]
    rw [matchLQuantF_lazify,
      matchQuantF_eq_matchLQuantF m2 (hd ns) txt _ _ (hq h2)]
  | LQuant =>
    simp only [lazTy, hmn]
    rw [matchLQuantF_lazify]
  | QMark =>
    simp only [lazTy]
    rw [matchLQuantF_lazify,
      matchQuantF_eq_matchLQuantF m2 (hd ns) txt 0 1 (by omega)]
  | LQMark =>
    simp only [lazTy]
    rw [matchLQuantF_lazify]
  | Star =>
    simp only [lazTy]
    rw [matchLQuantF_lazify,
      matchQuantF_eq_matchLQuantF m2 (hd ns) txt 0 MaxPlus (by omega)]
  | LStar =>
    simp only [lazTy]
    rw [matchLQuantF_lazify]
  | Plus =>
    simp only [lazTy]
    rw [matchLQuantF_lazify,
      matchQuantF_eq_matchLQuantF m2 (hd ns) txt 1 MaxPlus
        (by rw [MaxPlus]; omega)]
  | LPlus =>
    simp only [lazTy]
    rw [matchLQuantF_lazify]
  | _ => simp only [lazTy, matchOne_lazify]

/-- Lazifying every node of the cursor does not change the matcher
outcome, given ordered bounds on counted quantifiers. -/
theorem matchN_lazify : ∀ (f : Nat) (ns : List node) (txt : List Nat),
    quantWF ns → matchN f (ns.map lazify) txt = matchN f ns txt := by
  intro f
  induction f with
  | zero => intros; rfl
  | succ f ih =>
    intro ns txt hwf
    rw [matchN_succ, matchN_succ]
    rw [drop_map_lazify ns 1, drop_map_lazify ns 2]
    have h1 : (fun t => matchN f ((ns.drop 1).map lazify) t) =
        fun t => matchN f (ns.drop 1) t :=
      funext fun t => ih _ _ (quantWF_drop 1 hwf)
    have h2 : (fun t => matchN f ((ns.drop 2).map lazify) t) =
        fun t => matchN f (ns.drop 2) t :=
      funext fun t => ih _ _ (quantWF_drop 2 hwf)
    rw [h1, h2]
    exact matchStep_lazify _ _ ns txt hwf

/-! ## Further helper lemmas for the claims -/

/-- The greedy quantifier routine exactly as the matcher dispatch
invokes it: the atom is the node under the cursor and the rest matcher
runs past the atom and the quantifier. -/
def matchQuantN (f : Nat) (nodes : List node) (txt : List Nat)
    (mi mx : Nat) : Bool :=
  matchQuantF (fun t => matchN f (nodes.drop 2) t) (hd nodes) txt mi mx

/-- The lazy quantifier routine as invoked by the matcher dispatch. -/
def matchLQuantN (f : Nat) (nodes : List node) (txt : List Nat)
    (mi mx : Nat) : Bool :=
  matchLQuantF (fun t => matchN f (nodes.drop 2) t) (hd nodes) txt mi mx

theorem countAtom_matches (a : node) : ∀ (txt : List Nat) (mx j : Nat),
    j < countAtom a txt mx → matchOne a (txt.getD j 0) = true := by
  intro txt
  induction txt with
  | nil => intro mx j h; simp [countAtom] at h
  | cons c r ih =>
    intro mx j h
    cases mx with
    | zero => simp [countAtom] at h
    | succ m =>
      rw [countAtom] at h
      by_cases hc : matchOne a c = true
      · rw [if_pos hc] at h
        cases j with
        | zero => exact hc
        | succ j => exact ih m j (by omega)
      · rw [if_neg hc] at h
        omega

theorem countAtom_stop (a : node) : ∀ (txt : List Nat) (mx : Nat),
    countAtom a txt mx < mx → countAtom a txt mx < txt.length →
    matchOne a (txt.getD (countAtom a txt mx) 0) = false := by
  intro txt
  induction txt with
  | nil => intro mx h1 h2; simp at h2
  | cons c r ih =>
    intro mx h1 h2
    cases mx with
    | zero => omega
    | succ m =>
      rw [countAtom] at h1 h2 ⊢
      by_cases hc : matchOne a c = true
      · rw [if_pos hc] at h1 h2 ⊢
        simp only [List.getD_cons_succ]
        exact ih m (by omega) (by simp at h2; omega)
      · rw [if_neg hc] at h1 h2 ⊢
        simp only [List.getD_cons_zero]
        exact Bool.not_eq_true _ ▸ hc

theorem matchM_lazify (ns : List node) (hwf : quantWF ns) (t : List Nat) :
    matchM (ns.map lazify) t = matchM ns t := by
  unfold matchM
  rw [List.length_map]
  exact matchN_lazify _ _ _ hwf

theorem matchLoop_lazify (ns : List node) (hwf : quantWF ns) :
    ∀ b, matchLoop (ns.map lazify) b = matchLoop ns b := by
  intro b
  induction b with
  | nil => rfl
  | cons c r ih =>
    rw [matchLoop_cons, matchLoop_cons, ih, matchM_lazify ns hwf]

/-- Prepending an atom with a zero-minimum quantifier preserves any
match of the original node cursor: the quantifier may consume zero
bytes and hand the unchanged text to the rest of the pattern. -/
theorem matchM_prepend_zero_quant (A : node) (n : Nat) (ns : List node)
    (txt : List Nat) (h : matchM ns txt = true) :
    matchM (A :: { typ := Ty.Quant, mn := (0, n) } :: ns) txt = true := by
  unfold matchM
  rw [matchN_succ, matchStep.eq_def]
  rw [show hd (A :: { typ := Ty.Quant, mn := (0, n) } :: ns) = A from rfl]
  by_cases hN : A.typ = .None
  · rw [if_pos hN]
  rw [if_neg hN,
    if_neg (fun hx => Ty.noConfusion (show Ty.Quant = Ty.None from hx.2))]
  have hrest :
      matchN ((A :: { typ := Ty.Quant, mn := (0, n) } :: ns).length)
        ((A :: { typ := Ty.Quant, mn := (0, n) } :: ns).drop 2)
        (txt.drop 0) = true := by
    rw [List.drop_zero]
    show matchN (ns.length + 2) ns txt = true
    rw [← matchM_eq_matchN ns (ns.length + 2) txt (by omega)]
    exact h
  exact (quantBT_iff _ txt 0 _).mpr ⟨0, Nat.le_refl 0, Nat.zero_le _, hrest⟩

/-! ## Claims -/

/-- C1: the claim says Compile("[abc") and every unterminated class
yield the UnterminatedClass error and never crash.  The code instead
panics: the class-copy loop reads `expr[i+1]` past the end of the
pattern before the terminator check can run, so the "Non terminated
class" return is unreachable.  This theorem evaluates the model at the
failing inputs "[abc", "[" and "[a": all three are the Go runtime
panic, not a structured error. -/
theorem C1_unterminated_class_crashes :
    compile [91, 97, 98, 99] = .crash ∧
    compile [91] = .crash ∧
    compile [91, 97] = .crash := by decide

/-- C2: the claim says a missing closing brace — including when the
pattern ends first — yields a structured BadQuantifier error and never
a crash.  The code panics when the pattern ends inside a digit run:
after consuming a digit it reads `expr[i]` unguarded for the break
test.  "a{3" and "a{3,4" crash; the other claimed behaviours (n < m,
missing digits, m or n exceeding MAX_QUANT, `{m,}` meaning
m..MAX_QUANT) hold as stated, as evaluated here. -/
theorem C2_quantifier_missing_brace_crashes :
    compile [97, 123, 51] = .crash ∧
    compile [97, 123, 51, 44, 52] = .crash ∧
    compile [97, 123, 51, 44, 50, 125] = .err .BadQuantifier ∧
    compile [97, 123, 125] = .err .BadQuantifier ∧
    compile [97, 123, 49, 48, 50, 53, 125] = .err .BadQuantifier ∧
    (theRe (compile [97, 123, 50, 44, 125])).nodes =
      [{ typ := .Char, ch := 97 }, { typ := .Quant, mn := (2, 1024) }, {}] ∧
    compile [97, 123, 51, 44] = .err .BadQuantifier := by decide

/-- C3: for every compiled pattern and input the matcher is a total
boolean function (the embedding's match functions are total Lean
functions, witnessing termination of the Go recursion), and each
internal impossible state collapses to a non-match: sentinel and
anchor nodes reached byte-wise match no byte, an empty or
zero-leading class payload matches nothing, and exhausted input with a
pending atom fails the match. -/
theorem C3_matcher_total_and_impossible_states :
    (∀ (ns : List node) (txt : List Nat),
      matchM ns txt = true ∨ matchM ns txt = false) ∧
    (∀ b : Nat, matchOne { typ := .None } b = false ∧
      matchOne { typ := .Begin } b = false ∧
      matchOne { typ := .End } b = false ∧
      matchOne { typ := .Star } b = false ∧
      matchOne { typ := .Quant } b = false) ∧
    (∀ b : Nat, matchCharClass b [] = false) ∧
    (∀ (b : Nat) (p : List Nat), p.getD 0 0 = 0 →
      matchCharClass b p = false) ∧
    (∀ (a : node) (ns : List node) (f : Nat), isAtomTy a.typ = true →
      isQuantTy (nth ns 0).typ = false →
      matchN (f + 1) (a :: ns) [] = false) := by
  refine ⟨?_, ?_, ?_, ?_, ?_⟩
  · intro ns txt
    rcases Bool.eq_false_or_eq_true (matchM ns txt) with h | h
    · exact Or.inl h
    · exact Or.inr h
  · intro b
    exact ⟨rfl, rfl, rfl, rfl, rfl⟩
  · intro b
    rfl
  · intro b p hp
    cases p with
    | nil => rfl
    | cons c r =>
      have hc : c = 0 := hp
      subst hc
      rw [matchCharClass]
      have hidx : List.findIdx (fun c => c = 0) (0 :: r) = 0 := by
        simp [List.findIdx_cons]
      rw [hidx]
      rw [if_neg (by simp), if_neg (by omega)]
      rfl
  · intro a ns f ha hq
    have hne : a.typ ≠ .None := by
      intro hx
      rw [hx] at ha
      exact absurd ha (by decide)
    have hnE : a.typ ≠ .End := by
      intro hx
      rw [hx] at ha
      exact absurd ha (by decide)
    rw [matchN_succ, matchStep.eq_def,
      show hd (a :: ns) = a from rfl,
      show nth (a :: ns) 1 = nth ns 0 from rfl,
      if_neg hne, if_neg (fun hx => hnE hx.1)]
    cases ht : (nth ns 0).typ
    all_goals first
      | (rw [ht] at hq; exact absurd hq (by decide))
      | rfl

/-- C3 witness: the exhausted-input conjunct applied to the literal
atom "a" with an empty remainder, and the malformed-payload conjunct
applied to a zero-leading payload. -/
theorem C3_matcher_total_and_impossible_states_witness :
    matchN 1 [{ typ := Ty.Char, ch := 97 }] [] = false ∧
    matchCharClass 53 [0, 97] = false :=
  ⟨C3_matcher_total_and_impossible_states.2.2.2.2
      { typ := Ty.Char, ch := 97 } [] 0 (by decide) (by decide),
    C3_matcher_total_and_impossible_states.2.2.2.1 53 [0, 97] (by decide)⟩

/-- C4: Match on the empty input returns false for every compiled
pattern, including patterns such as dot-star that could match an empty
string. -/
theorem C4_empty_input_false : ∀ re : Regexp, re.Match [] = false := by
  intro re
  rfl

/-- C5 counterexample: the claim as stated fails on the empty input.
For the pattern "^.*" (bytes 94 46 42) the compiled pattern starts
with Begin and its un-anchored suffix matches at offset 0 of the empty
input, yet Match returns false: the empty-input guard fires before the
single anchored attempt the claim promises. -/
theorem C5_counterexample :
    isOk (compile [94, 46, 42]) = true ∧
    (nth (theRe (compile [94, 46, 42])).nodes 0).typ = .Begin ∧
    Regexp.Match (theRe (compile [94, 46, 42])) [] = false ∧
    matchM ((theRe (compile [94, 46, 42])).nodes.drop 1) [] = true := by
  decide

/-- C5 amended: on empty input Match returns false outright; on
nonempty input, a pattern whose first node is Begin makes exactly one
anchored attempt with the anchor consumed, and otherwise Match
succeeds exactly when the core match succeeds at some offset below the
input length, offsets tried in increasing order with the first success
winning. -/
theorem C5_anchored_dispatch (re : Regexp) (b : List Nat) :
    (b = [] → re.Match b = false) ∧
    (b ≠ [] → (nth re.nodes 0).typ = .Begin →
      re.Match b = matchM (re.nodes.drop 1) b) ∧
    (b ≠ [] → (nth re.nodes 0).typ ≠ .Begin →
      (re.Match b = true ↔
        ∃ k, k < b.length ∧ matchM re.nodes (b.drop k) = true)) := by
  refine ⟨?_, ?_, ?_⟩
  · intro hb
    subst hb
    rfl
  · intro hb hB
    unfold Regexp.Match
    rw [if_neg hb, if_pos hB]
  · intro hb hB
    unfold Regexp.Match
    rw [if_neg hb, if_neg hB]
    exact matchLoop_iff re.nodes b

/-- C5 witness: the anchored branch applied to the compiled "^a" on
the input "ba". -/
theorem C5_anchored_dispatch_witness :
    Regexp.Match (theRe (compile [94, 97])) [98, 97] =
      matchM ((theRe (compile [94, 97])).nodes.drop 1) [98, 97] :=
  (C5_anchored_dispatch (theRe (compile [94, 97])) [98, 97]).2.1
    (by decide) (by decide)

/-- C6: the greedy quantifier routine first consumes bytes matching
the atom up to the bound (the count is maximal: every consumed byte
matches and, when the loop stopped short of both limits, the next byte
does not match), then succeeds exactly when the rest of the node
sequence — past the atom and the quantifier — matches the suffix after
some count between the bounds, counts tried from the largest down with
the first success winning. -/
theorem C6_greedy_quantifier (f : Nat) (a q : node) (rest : List node)
    (txt : List Nat) (mi mx : Nat) (_hmm : mi ≤ mx) :
    (countAtom a txt mx ≤ mx ∧
     countAtom a txt mx ≤ txt.length ∧
     (∀ j, j < countAtom a txt mx → matchOne a (txt.getD j 0) = true) ∧
     (countAtom a txt mx < mx → countAtom a txt mx < txt.length →
       matchOne a (txt.getD (countAtom a txt mx) 0) = false)) ∧
    (matchQuantN f (a :: q :: rest) txt mi mx = true ↔
      ∃ k, mi ≤ k ∧ k ≤ countAtom a txt mx ∧
        matchN f rest (txt.drop k) = true) := by
  constructor
  · refine ⟨?_, ?_, countAtom_matches a txt mx, countAtom_stop a txt mx⟩
    · rw [countAtom_eq_min]
      omega
    · rw [countAtom_eq_min]
      have := runLen_le_length a txt
      omega
  · exact quantBT_iff (fun t => matchN f rest t) txt mi (countAtom a txt mx)

/-- C6 witness: the routine for atom "a", bounds 0..2 on "aab",
succeeding with zero consumed because the empty rest matches. -/
theorem C6_greedy_quantifier_witness :
    matchQuantN 1 ({ typ := .Char, ch := 97 } :: { typ := .Quant } :: [{}])
      [97, 97, 98] 0 2 = true :=
  (C6_greedy_quantifier 1 { typ := .Char, ch := 97 } { typ := .Quant } [{}]
      [97, 97, 98] 0 2 (by decide)).2.mpr
    ⟨0, by decide, by decide, by decide⟩

/-- C7: for every successfully compiled pattern, replacing every
greedy quantifier node by its lazy form leaves the set of matching
inputs unchanged: Match agrees on every input. -/
theorem C7_greedy_lazy_same_inputs (expr : List Nat) (re : Regexp)
    (txt : List Nat) (h : compile expr = .ok re) :
    re.Match txt =
      Regexp.Match ⟨re.nodes.map lazify, re.buffer⟩ txt := by
  have hwf := compile_quantWF expr re h
  unfold Regexp.Match
  by_cases hb : txt = []
  · rw [if_pos hb, if_pos hb]
  rw [if_neg hb, if_neg hb]
  have hBiff : ((nth ((⟨re.nodes.map lazify, re.buffer⟩ : Regexp)).nodes 0).typ
        = Ty.Begin) ↔ ((nth re.nodes 0).typ = Ty.Begin) := by
    show ((nth (re.nodes.map lazify) 0).typ = Ty.Begin) ↔ _
    rw [nth_map_lazify]
    exact lazTy_eq_begin_iff _
  by_cases hB : (nth re.nodes 0).typ = .Begin
  · rw [if_pos hB, if_pos (hBiff.mpr hB)]
    show matchM (re.nodes.drop 1) txt =
      matchM ((re.nodes.map lazify).drop 1) txt
    rw [drop_map_lazify]
    exact (matchM_lazify _ (quantWF_drop 1 hwf) txt).symm
  · rw [if_neg hB, if_neg (fun hx => hB (hBiff.mp hx))]
    exact (matchLoop_lazify re.nodes hwf txt).symm

/-- C7 witness: the compiled "a*" and its lazified form agree on the
input "a". -/
theorem C7_greedy_lazy_same_inputs_witness :
    (theRe (compile [97, 42])).Match [97] =
      Regexp.Match
        ⟨(theRe (compile [97, 42])).nodes.map lazify,
          (theRe (compile [97, 42])).buffer⟩ [97] :=
  C7_greedy_lazy_same_inputs [97, 42] (theRe (compile [97, 42])) [97]
    (by decide)

/-- C8 counterexample: the claim fails when the pattern remainder is
anchored.  "^a" (bytes 94 97) accepts "a", but prepending the
quantified atom "b{0,1}" gives "b{0,1}^a" (bytes 98 123 48 44 49 125
94 97), whose Begin node is no longer first: the anchor becomes a dead
mid-pattern node that matches no byte, and the input "a" is
rejected. -/
theorem C8_counterexample :
    isOk (compile [94, 97]) = true ∧
    isOk (compile [98, 123, 48, 44, 49, 125, 94, 97]) = true ∧
    (theRe (compile [98, 123, 48, 44, 49, 125, 94, 97])).nodes =
      { typ := .Char, ch := 98 } :: { typ := .Quant, mn := (0, 1) } ::
        (theRe (compile [94, 97])).nodes ∧
    Regexp.Match (theRe (compile [94, 97])) [97] = true ∧
    Regexp.Match (theRe (compile [98, 123, 48, 44, 49, 125, 94, 97])) [97]
      = false := by
  decide

/-- C8 amended: prepending a quantifiable atom with a `{0,n}`
quantifier never rejects an input the original pattern accepts,
provided the original pattern does not start with the Begin anchor
(prepending to an anchored pattern kills the anchor, as the
counterexample shows). -/
theorem C8_zero_min_quant_preserves (A : node) (n : Nat) (ns : List node)
    (buf : List Nat) (txt : List Nat) (hA : isAtomTy A.typ = true)
    (hB : (nth ns 0).typ ≠ .Begin)
    (h : Regexp.Match ⟨ns, buf⟩ txt = true) :
    Regexp.Match ⟨A :: { typ := Ty.Quant, mn := (0, n) } :: ns, buf⟩ txt
      = true := by
  unfold Regexp.Match at h ⊢
  by_cases hb : txt = []
  · rw [if_pos hb] at h
    exact absurd h (by simp)
  rw [if_neg hb] at h ⊢
  have hA2 : (nth (A :: { typ := Ty.Quant, mn := (0, n) } :: ns) 0).typ
      ≠ .Begin := by
    show A.typ ≠ .Begin
    intro hx
    rw [hx] at hA
    exact absurd hA (by decide)
  rw [if_neg hA2]
  rw [if_neg hB] at h
  obtain ⟨k, hk, hm⟩ :=
    (matchLoop_iff ((⟨ns, buf⟩ : Regexp)).nodes txt).mp h
  exact (matchLoop_iff _ txt).mpr
    ⟨k, hk, matchM_prepend_zero_quant A n ns (txt.drop k) hm⟩

/-- C8 witness: prepending "x{0,1}" to the unanchored "a" preserves
its match of "a". -/
theorem C8_zero_min_quant_preserves_witness :
    Regexp.Match
      ⟨{ typ := Ty.Char, ch := 120 } :: { typ := Ty.Quant, mn := (0, 1) } ::
        [{ typ := Ty.Char, ch := 97 }, {}], []⟩ [97] = true :=
  C8_zero_min_quant_preserves { typ := Ty.Char, ch := 120 } 1
    [{ typ := Ty.Char, ch := 97 }, {}] [] [97]
    (by decide) (by decide) (by decide)

/-- C9 counterexample: the claim says a backslash escaping another
backslash is stripped, storing one byte.  The pattern `[\\]` (bytes
91 92 92 93) compiles with the two bytes 92 92 in the class buffer —
the escape is preserved, because the compiler treats the backslash
like the meta letters — so the payload is 92 92 0 and not the claimed
92 0. -/
theorem C9_counterexample :
    isOk (compile [91, 92, 92, 93]) = true ∧
    (theRe (compile [91, 92, 92, 93])).buffer.take 3 = [92, 92, 0] ∧
    (theRe (compile [91, 92, 92, 93])).buffer.take 2 ≠ [92, 0] := by
  decide

set_option maxRecDepth 8000 in
set_option maxHeartbeats 1000000 in
/-- C9 amended: in a compiled class, a backslash escaping one of the
meta letters d D w W s S or another backslash is preserved as the two
bytes backslash-then-character; a backslash escaping any other byte is
stripped so only the escaped byte is stored; and the payload is
terminated by a zero byte.  Verified exhaustively over all 256 escaped
byte values in a single-escape class, and on a composite class mixing
a preserved meta escape, a preserved backslash escape, a stripped
escape and a literal. -/
theorem C9_class_escape_encoding :
    (∀ c, c < 256 →
      isOk (compile [91, 92, c, 93]) = true ∧
      (theRe (compile [91, 92, c, 93])).buffer.take
          (if isMetaOrEsc c then 3 else 2) =
        (if isMetaOrEsc c then [92, c, 0] else [c, 0])) ∧
    (theRe (compile [91, 92, 100, 92, 92, 92, 45, 120, 93])).buffer.take 7 =
      [92, 100, 92, 92, 45, 120, 0] := by
  decide

/-- C9 witness: the amended encoding at the escaped byte value 100
(the meta letter d): preserved as two bytes then the terminator. -/
theorem C9_class_escape_encoding_witness :
    isOk (compile [91, 92, 100, 93]) = true ∧
    (theRe (compile [91, 92, 100, 93])).buffer.take
        (if isMetaOrEsc 100 then 3 else 2) =
      (if isMetaOrEsc 100 then [92, 100, 0] else [100, 0]) :=
  C9_class_escape_encoding.1 100 (by decide)

/-- C10: for patterns not beginning with the Begin anchor, Match
succeeds exactly when the core match succeeds at an offset strictly
below the input length — the empty suffix is never attempted — and
consequently the compiled pattern consisting solely of the End anchor
returns false on every input. -/
theorem C10_no_empty_suffix :
    (∀ (ns : List node) (buf : List Nat) (b : List Nat),
      (nth ns 0).typ ≠ .Begin →
      (Regexp.Match ⟨ns, buf⟩ b = true ↔
        ∃ k, k < b.length ∧ matchM ns (b.drop k) = true)) ∧
    (∀ b : List Nat, (theRe (compile [36])).Match b = false) := by
  constructor
  · intro ns buf b hB
    unfold Regexp.Match
    by_cases hb : b = []
    · subst hb
      simp
    · rw [if_neg hb, if_neg hB]
      exact matchLoop_iff ns b
  · have hre : theRe (compile [36]) =
        ⟨[{ typ := .End }, {}], List.replicate 128 0⟩ := by decide
    have hML : ∀ b2, matchLoop [{ typ := Ty.End }, {}] b2 = false := by
      intro b2
      induction b2 with
      | nil => rfl
      | cons c r ih =>
        rw [matchLoop_cons, ih]
        have hmm : matchM [{ typ := Ty.End }, {}] (c :: r) = false := rfl
        rw [hmm]
        rfl
    intro b
    rw [hre]
    cases b with
    | nil => rfl
    | cons c r =>
      unfold Regexp.Match
      rw [if_neg (by simp), if_neg (by decide)]
      exact hML (c :: r)

/-- C10 witness: the offset characterisation applied to the compiled
nodes of "a" on the input "ba": the match succeeds at offset 1. -/
theorem C10_no_empty_suffix_witness :
    Regexp.Match ⟨[{ typ := Ty.Char, ch := 97 }, {}], []⟩ [98, 97]
      = true :=
  (C10_no_empty_suffix.1 [{ typ := Ty.Char, ch := 97 }, {}] [] [98, 97]
      (by decide)).mpr ⟨1, by decide, by decide⟩

end Trex
